import Mathlib

/-!
# Verification of the concurrent chunk-processing pipeline (`split.go`)

Shallow embedding of the Go program in `src/split.go`:

* `readChunks` (producer): reads a file in fixed-size blocks via `io.ReadFull`
  and emits indexed shards; modelled by `readLoop` over the file's byte list,
  with a schedule `readErr` saying which `ReadFull` calls return a hard error
  (neither `io.EOF` nor `io.ErrUnexpectedEOF`).
* `writeResults` (collector): drains the result channel into a map, then writes
  the entries at keys `0 .. len(map)-1` to the output file; modelled with an
  association list mirroring the Go map, and a write loop that mutates the file
  content at the current offset (the output is opened `O_WRONLY|O_CREATE`,
  without `O_TRUNC`, so pre-existing bytes beyond the written region survive).
* `ReadValue`: random-access read of one fixed-size record via `File.ReadAt`;
  the `int64` offset product `index*size` wraps on overflow (`wrap64`).

File contents are `List Byte` with `Byte := Nat` (byte values are opaque to the
pipeline). Go `string` payloads are byte sequences, also `List Byte`.
-/

/-- A file byte. The pipeline never inspects byte values. -/
abbrev Byte := Nat

/-- Go `type shard struct { index int; value string }`. Every shard the program
creates has a nonnegative index (the producer's loop counter), so we use `Nat`. -/
structure Shard where
  index : Nat
  value : List Byte
  deriving DecidableEq, Repr

/-! ## Producer: `readChunks` -/

/-- The producer's read loop (`split.go:38-49`). `c` is the part of the file not
yet read, `i` the loop counter. `readErr i = true` models the `i`-th
`io.ReadFull` call returning a hard error (not `io.EOF`, not
`io.ErrUnexpectedEOF`): the loop breaks without emitting. Otherwise a full or
partial buffer (`c.take size`) is emitted and reading continues; a zero-byte
read at end of file (`c = []`, `io.EOF`) breaks without emitting.
When `size = 0` the Go loop would spin forever (`io.ReadFull` on an empty
buffer returns `(0, nil)`); every specified behaviour requires `chunkSize > 0`,
and we make the function total by returning `[]` in that out-of-scope case. -/
def readLoop (size : Nat) (readErr : Nat → Bool) (c : List Byte) (i : Nat) :
    List Shard :=
  if readErr i then []
  else if h : size = 0 ∨ c = [] then []
  else ⟨i, c.take size⟩ :: readLoop size readErr (c.drop size) (i + 1)
termination_by c.length
decreasing_by
  simp only [not_or] at h
  have h1 : 0 < size := Nat.pos_of_ne_zero h.1
  have h2 : 0 < c.length := List.length_pos.mpr h.2
  simp only [List.length_drop]
  omega

/-- The chunk stream of an error-free run of the producer's loop on file
content `c` with chunk size `size`. -/
def readChunks (size : Nat) (c : List Byte) : List Shard :=
  readLoop size (fun _ => false) c 0

/-- Outcome of one run of `readChunks` (the goroutine): the shards sent on the
output channel, in order, and whether the channel was closed on exit. -/
structure ProducerRun where
  emitted : List Shard
  closed : Bool
  deriving DecidableEq, Repr

/-- One full run of `readChunks` (`split.go:20-50`). `openResult` is the
content of the input file, or `none` when `os.Open` fails. `defer close(output)`
runs on every exit path, so `closed := true` on each branch. -/
def readChunksRun (openResult : Option (List Byte)) (size : Nat)
    (readErr : Nat → Bool) : ProducerRun :=
  match openResult with
  | none => ⟨[], true⟩
  | some c => ⟨readLoop size readErr c 0, true⟩

/-! ## Collector: `writeResults` -/

/-- The Go map `map[int]string` is modelled by an association list with
distinct keys; `mapInsert` is `result[k] = v` (replace the existing binding,
or append a fresh one). -/
def mapInsert (m : List (Nat × List Byte)) (k : Nat) (v : List Byte) :
    List (Nat × List Byte) :=
  match m with
  | [] => [(k, v)]
  | (k', v') :: rest =>
      if k' = k then (k, v) :: rest else (k', v') :: mapInsert rest k v

/-- Go map read `result[k]`, as an option: `none` when the key is absent (Go
then yields the zero value `""`, i.e. `[]`). -/
def mapLookup (m : List (Nat × List Byte)) (k : Nat) : Option (List Byte) :=
  match m with
  | [] => none
  | (k', v) :: rest => if k' = k then some v else mapLookup rest k

/-- The collector's drain phase (`split.go:58-61`): insert every shard received
on the results channel, in arrival order, into the map. -/
def buildMap (results : List Shard) : List (Nat × List Byte) :=
  results.foldl (fun m s => mapInsert m s.index s.value) []

/-- One `file.WriteString(s)` on a file whose current content is `c` and whose
write offset is `pos`: bytes `[pos, pos + s.length)` are replaced (the file
grows as needed). The file was opened without `O_APPEND`, so writes land at the
running offset, starting at 0. -/
def writeAt (c : List Byte) (pos : Nat) (s : List Byte) : List Byte :=
  c.take pos ++ s ++ c.drop (pos + s.length)

/-- State of the collector's write loop: current file content, current write
offset, bytes successfully written so far (in order), and whether no write has
failed yet. -/
structure WState where
  content : List Byte
  pos : Nat
  written : List Byte
  ok : Bool
  deriving DecidableEq, Repr

/-- The collector's write loop (`split.go:77-84`): for `i` from the loop index
up to `count - 1`, write `result[i]` (the zero value `[]` when the key is
missing). `wfail i = true` models `file.WriteString` failing at loop index `i`:
the loop breaks with `ok := false` (a failed write writes nothing). -/
def writeLoopAt (f : Nat → List Byte) (wfail : Nat → Bool) (count : Nat)
    (i : Nat) (st : WState) : WState :=
  if i < count then
    if wfail i then { st with ok := false }
    else
      writeLoopAt f wfail count (i + 1)
        { content := writeAt st.content st.pos (f i)
          pos := st.pos + (f i).length
          written := st.written ++ f i
          ok := st.ok }
  else st
termination_by count - i

/-- Outcome of one run of `writeResults`: the final content of the output file
(`none` when it was never created), the bytes written this run, and the values
sent on the `done` channel, in order. -/
structure CollectorRun where
  fileContent : Option (List Byte)
  written : List Byte
  signals : List Bool
  deriving DecidableEq, Repr

/-- One full run of `writeResults` (`split.go:56-87`). `results` are the shards
read off the results channel (the channel is closed after them), `openOk` is
whether `os.OpenFile(filename, O_WRONLY|O_CREATE, 0644)` succeeds, `pre` the
pre-existing content of the output file (`none` if it does not exist; `O_CREATE`
then creates it empty — there is no `O_TRUNC`, so existing content is kept and
overwritten in place), and `wfail` the write-failure schedule. On a write error
the loop sends `false` and breaks, and the code then falls through to the
unconditional `done <- true`, so the signal sequence is `[false, true]`; with no
write error it is `[true]`. (We assume `file.Close()` in the `defer` succeeds.)
`collectorOut` packages the final loop state into the observable outcome. -/
def collectorOut (st : WState) : CollectorRun :=
  ⟨some st.content, st.written, if st.ok then [true] else [false, true]⟩

/-- See `collectorOut` above for the reading of the parameters. -/
def writeResults (results : List Shard) (openOk : Bool)
    (pre : Option (List Byte)) (wfail : Nat → Bool) : CollectorRun :=
  if openOk then
    collectorOut (writeLoopAt (fun i => (mapLookup (buildMap results) i).getD [])
      wfail (buildMap results).length 0 ⟨pre.getD [], 0, [], true⟩)
  else ⟨pre, [], [false]⟩

/-- The payload the collector writes at loop index `i`: Go `result[i]`, the
zero value `""` (here `[]`) when the key is absent. -/
def slotPayload (results : List Shard) (i : Nat) : List Byte :=
  (mapLookup (buildMap results) i).getD []

/-- The concatenation of the collector's writes for loop indices `0 .. n-1`,
in ascending index order. -/
def writtenSeg (results : List Shard) (n : Nat) : List Byte :=
  ((List.range n).map (slotPayload results)).flatten

/-- The caller-visible outcome of `ProcessFile` (`split.go:122`): the single
value read from the `done` channel, i.e. the first signal the collector sends. -/
def reportedOutcome (r : CollectorRun) : Option Bool :=
  r.signals.head?

/-! ## Random access: `ReadValue` -/

/-- Two's-complement wraparound of an integer into a 64-bit signed value: the
representative of `x` modulo `2^64` lying in `[-2^63, 2^63)`. This is what Go
`int64` multiplication overflow produces. The numerals are `2^63` and `2^64`. -/
def wrap64 (x : Int) : Int :=
  (x + 9223372036854775808) % 18446744073709551616 - 9223372036854775808

/-- `ReadValue` (`split.go:132-153`). `file` is the content of the file at
`filePath`, or `none` when `os.Open` fails. The offset `index*size` is a Go
`int64` product, so it wraps on overflow: `wrap64 (index * size)`.
`file.ReadAt(buffer, off)` with a negative offset is an error with 0 bytes
read; otherwise it reads `min size (len - off)` bytes into the buffer. The
code returns `nil` when fewer than `size` bytes were read, else the buffer,
which then holds exactly the bytes `[off, off + size)` of the file. (`index`
and `size` are `int64`; Go would panic on `make([]byte, size)` with
`size < 0` — all specified uses have `recordSize > 0`.) -/
def ReadValue (file : Option (List Byte)) (index size : Int) :
    Option (List Byte) :=
  match file with
  | none => none
  | some content =>
      let off : Int := wrap64 (index * size)
      let n : Int := if off < 0 then 0 else min size ((content.length : Int) - off)
      if n < size then none
      else some ((content.drop off.toNat).take size.toNat)


/-! ## Producer lemmas -/

theorem readLoop_err {size : Nat} {re : Nat → Bool} {c : List Byte} {i : Nat}
    (h : re i = true) : readLoop size re c i = [] := by
  rw [readLoop, h]
  simp

theorem readLoop_nil {size : Nat} {re : Nat → Bool} {i : Nat} :
    readLoop size re [] i = [] := by
  rw [readLoop]
  split <;> simp

theorem readLoop_cons {size : Nat} {re : Nat → Bool} {c : List Byte} {i : Nat}
    (hs : size ≠ 0) (hc : c ≠ []) (h : re i = false) :
    readLoop size re c i = ⟨i, c.take size⟩ :: readLoop size re (c.drop size) (i + 1) := by
  rw [readLoop, h]
  simp [hs, hc]

theorem readLoop_stop {size : Nat} {re : Nat → Bool} {c : List Byte} {i : Nat}
    (h : size = 0 ∨ c = []) : readLoop size re c i = [] := by
  rw [readLoop]
  split <;> rfl

theorem readLoop_ne_nil {size : Nat} {c : List Byte} {i : Nat}
    (hs : size ≠ 0) (hc : c ≠ []) : readLoop size (fun _ => false) c i ≠ [] := by
  rw [readLoop_cons hs hc rfl]
  exact List.cons_ne_nil _ _

/-- The indices emitted by an error-free read loop started at counter `i` are
exactly `i, i+1, …` — contiguous, increasing, no gaps or duplicates. -/
theorem readLoop_map_index (size : Nat) (c : List Byte) (i : Nat) :
    (readLoop size (fun _ => false) c i).map Shard.index =
      List.range' i (readLoop size (fun _ => false) c i).length := by
  induction c, i using readLoop.induct size (fun _ => false) with
  | case1 c i h => simp at h
  | case2 c i _ h2 => rw [readLoop_stop h2]; rfl
  | case3 c i _ h2 ih =>
      rw [not_or] at h2
      rw [readLoop_cons h2.1 h2.2 rfl]
      simp only [List.map_cons, List.length_cons, ih, List.range'_succ]

/-- Concatenating the payloads of an error-free read loop recovers the file
content. -/
theorem readLoop_flatten (size : Nat) (hs : 0 < size) (c : List Byte) (i : Nat) :
    ((readLoop size (fun _ => false) c i).map Shard.value).flatten = c := by
  induction c, i using readLoop.induct size (fun _ => false) with
  | case1 c i h => simp at h
  | case2 c i _ h2 =>
      rcases h2 with h2 | h2
      · omega
      · rw [readLoop_stop (Or.inr h2), h2]; rfl
  | case3 c i _ h2 ih =>
      rw [not_or] at h2
      rw [readLoop_cons h2.1 h2.2 rfl]
      simp only [List.map_cons, List.flatten_cons, ih]
      exact List.take_append_drop size c

/-- A run with read errors emits a prefix of the error-free chunk stream. -/
theorem readLoop_prefix (size : Nat) (re : Nat → Bool) (c : List Byte) (i : Nat) :
    readLoop size re c i <+: readLoop size (fun _ => false) c i := by
  induction c, i using readLoop.induct size re with
  | case1 c i h => rw [readLoop_err h]; exact List.nil_prefix
  | case2 c i _ h2 => rw [readLoop_stop h2]; exact List.nil_prefix
  | case3 c i h h2 ih =>
      rw [not_or] at h2
      have hre : re i = false := by simpa using h
      rw [readLoop_cons h2.1 h2.2 hre, readLoop_cons h2.1 h2.2 rfl]
      exact (List.prefix_cons_inj _).mpr ih

/-- Chunk count of an error-free read: `⌈length / size⌉`. -/
theorem readLoop_length (size : Nat) (hs : 0 < size) (c : List Byte) (i : Nat) :
    (readLoop size (fun _ => false) c i).length = (c.length + size - 1) / size := by
  induction c, i using readLoop.induct size (fun _ => false) with
  | case1 c i h => simp at h
  | case2 c i _ h2 =>
      rcases h2 with h2 | h2
      · omega
      · rw [readLoop_stop (Or.inr h2), h2]
        simp [Nat.div_eq_of_lt (by omega : size - 1 < size)]
  | case3 c i _ h2 ih =>
      rw [not_or] at h2
      have hc : 0 < c.length := List.length_pos.mpr h2.2
      rw [readLoop_cons h2.1 h2.2 rfl]
      simp only [List.length_cons, ih, List.length_drop]
      rcases le_or_lt c.length size with hle | hlt
      · rw [Nat.sub_eq_zero_of_le hle]
        rw [(by omega : c.length + size - 1 = (c.length - 1) + size),
          Nat.add_div_right _ hs, Nat.div_eq_of_lt (by omega : c.length - 1 < size),
          (by omega : 0 + size - 1 = size - 1),
          Nat.div_eq_of_lt (by omega : size - 1 < size)]
      · rw [(by omega : c.length - size + size - 1 = (c.length - size - 1) + size),
          Nat.add_div_right _ hs,
          (by omega : c.length + size - 1 = ((c.length - size - 1) + size) + size),
          Nat.add_div_right _ hs, Nat.add_div_right _ hs]

/-- Payload length of the last chunk of an error-free read of a nonempty file:
`length % size` when nonzero, else `size`. -/
theorem readLoop_getLast (size : Nat) (hs : 0 < size) (c : List Byte) (i : Nat)
    (hc : c ≠ []) :
    ((readLoop size (fun _ => false) c i).getLast?).map (fun s => s.value.length) =
      some (if c.length % size = 0 then size else c.length % size) := by
  induction c, i using readLoop.induct size (fun _ => false) with
  | case1 c i h => simp at h
  | case2 c i _ h2 =>
      rcases h2 with h2 | h2
      · omega
      · exact absurd h2 hc
  | case3 c i _ h2 ih =>
      rw [not_or] at h2
      have hcl : 0 < c.length := List.length_pos.mpr h2.2
      rw [readLoop_cons h2.1 h2.2 rfl]
      by_cases hrest : c.drop size = []
      · have hlen : c.length ≤ size := by
          have := List.length_drop size c ▸ congrArg List.length hrest
          simp at this; omega
        rw [readLoop_stop (Or.inr hrest)]
        simp only [List.getLast?_cons, List.getLast?_eq_none_iff.mpr rfl,
          Option.getD_none, Option.map_some', List.length_take]
        rcases Nat.lt_or_ge c.length size with hlt | hge
        · rw [if_neg (by rw [Nat.mod_eq_of_lt hlt]; omega), Nat.mod_eq_of_lt hlt]
          congr 1; omega
        · have : c.length = size := by omega
          rw [this, Nat.mod_self, if_pos rfl]
          congr 1; omega
      · have hlt : size < c.length := by
          have := List.length_drop size c
          have hpos : 0 < (c.drop size).length := List.length_pos.mpr hrest
          omega
        have hne := @readLoop_ne_nil size (c.drop size) (i + 1) h2.1 hrest
        rw [List.getLast?_cons]
        rcases List.exists_mem_of_ne_nil _ hne with ⟨_, _⟩
        cases hgl : (readLoop size (fun _ => false) (c.drop size) (i + 1)).getLast? with
        | none => exact absurd (List.getLast?_eq_none_iff.mp hgl) hne
        | some s =>
            have := ih hrest
            rw [hgl] at this
            simp only [Option.getD_some, this, List.length_drop]
            rw [← Nat.mod_eq_sub_mod (by omega : size ≤ c.length)]

/-! ### Map lemmas -/

theorem mapLookup_mapInsert_self (m : List (Nat × List Byte)) (k : Nat)
    (v : List Byte) : mapLookup (mapInsert m k v) k = some v := by
  induction m with
  | nil => simp [mapInsert, mapLookup]
  | cons p rest ih =>
      obtain ⟨k', v'⟩ := p
      by_cases h : k' = k
      · simp [mapInsert, mapLookup, h]
      · simp [mapInsert, mapLookup, h, ih]

theorem mapLookup_mapInsert_ne (m : List (Nat × List Byte)) {k k' : Nat}
    (v : List Byte) (h : k' ≠ k) :
    mapLookup (mapInsert m k v) k' = mapLookup m k' := by
  induction m with
  | nil =>
      simp only [mapInsert, mapLookup]
      rw [if_neg (Ne.symm h)]
  | cons p rest ih =>
      obtain ⟨k'', v''⟩ := p
      by_cases hp : k'' = k
      · subst hp
        simp only [mapInsert, if_pos rfl, mapLookup]
        simp only [if_neg (Ne.symm h)]
      · simp only [mapInsert, if_neg hp, mapLookup]
        by_cases hp' : k'' = k'
        · simp only [if_pos hp']
        · simp only [if_neg hp', ih]

theorem mapInsert_of_not_mem {m : List (Nat × List Byte)} {k : Nat}
    (v : List Byte) (h : k ∉ m.map Prod.fst) :
    mapInsert m k v = m ++ [(k, v)] := by
  induction m with
  | nil => rfl
  | cons p rest ih =>
      obtain ⟨k', v'⟩ := p
      simp only [List.map_cons, List.mem_cons, not_or] at h
      simp only [mapInsert, if_neg (Ne.symm h.1), List.cons_append,
        List.cons.injEq, true_and]
      exact ih h.2

theorem keys_mapInsert (m : List (Nat × List Byte)) (k : Nat) (v : List Byte) :
    (mapInsert m k v).map Prod.fst =
      if k ∈ m.map Prod.fst then m.map Prod.fst else m.map Prod.fst ++ [k] := by
  induction m with
  | nil => simp [mapInsert]
  | cons p rest ih =>
      obtain ⟨k', v'⟩ := p
      by_cases h : k' = k
      · subst h
        simp [mapInsert]
      · simp only [mapInsert, if_neg h, List.map_cons, ih, List.mem_cons]
        by_cases hm : k ∈ rest.map Prod.fst
        · rw [if_pos hm, if_pos (Or.inr hm)]
        · have hnot : ¬(k = k' ∨ k ∈ rest.map Prod.fst) := by
            rintro (e | e)
            · exact h e.symm
            · exact hm e
          rw [if_neg hm, if_neg hnot, List.cons_append]

theorem keys_mapInsert_nodup {m : List (Nat × List Byte)} (k : Nat)
    (v : List Byte) (h : (m.map Prod.fst).Nodup) :
    ((mapInsert m k v).map Prod.fst).Nodup := by
  rw [keys_mapInsert]
  by_cases hm : k ∈ m.map Prod.fst
  · rwa [if_pos hm]
  · rw [if_neg hm]
    rw [List.nodup_append]
    refine ⟨h, List.nodup_singleton k, ?_⟩
    intro a ha hb
    rw [List.mem_singleton] at hb
    exact hm (hb ▸ ha)

theorem mem_keys_mapInsert_iff {m : List (Nat × List Byte)} {k k' : Nat}
    {v : List Byte} :
    k' ∈ (mapInsert m k v).map Prod.fst ↔ k' ∈ m.map Prod.fst ∨ k' = k := by
  rw [keys_mapInsert]
  by_cases hm : k ∈ m.map Prod.fst
  · rw [if_pos hm]
    constructor
    · exact Or.inl
    · rintro (h | rfl)
      · exact h
      · exact hm
  · rw [if_neg hm]
    simp

theorem mapLookup_eq_none_iff {m : List (Nat × List Byte)} {k : Nat} :
    mapLookup m k = none ↔ k ∉ m.map Prod.fst := by
  induction m with
  | nil => simp [mapLookup]
  | cons p rest ih =>
      obtain ⟨k', v'⟩ := p
      simp only [mapLookup, List.map_cons, List.mem_cons, not_or]
      by_cases h : k' = k
      · simp [h]
      · simp only [if_neg h, ih]
        constructor
        · exact fun hn => ⟨fun e => h e.symm, hn⟩
        · exact fun hn => hn.2

/-! ### `buildMap` lemmas -/

theorem buildMap_keys_nodup (results : List Shard) :
    ((buildMap results).map Prod.fst).Nodup := by
  suffices h : ∀ (acc : List (Nat × List Byte)), (acc.map Prod.fst).Nodup →
      ((results.foldl (fun m s => mapInsert m s.index s.value) acc).map
        Prod.fst).Nodup by
    exact h [] (by simp)
  induction results with
  | nil => exact fun acc h => h
  | cons s rest ih =>
      intro acc hacc
      exact ih _ (keys_mapInsert_nodup _ _ hacc)

theorem mem_keys_buildMap {results : List Shard} {s : Shard} (hs : s ∈ results) :
    s.index ∈ (buildMap results).map Prod.fst := by
  suffices h : ∀ (acc : List (Nat × List Byte)) (k : Nat),
      (k ∈ acc.map Prod.fst ∨ ∃ t ∈ results, t.index = k) →
      k ∈ (results.foldl (fun m s => mapInsert m s.index s.value) acc).map
        Prod.fst by
    exact h [] s.index (Or.inr ⟨s, hs, rfl⟩)
  clear hs
  induction results with
  | nil =>
      rintro acc k (h | ⟨t, ht, rfl⟩)
      · exact h
      · exact absurd ht (List.not_mem_nil t)
  | cons x rest ih =>
      rintro acc k (h | ⟨t, ht, rfl⟩)
      · exact ih _ _ (Or.inl (mem_keys_mapInsert_iff.mpr (Or.inl h)))
      · rcases List.mem_cons.mp ht with rfl | ht
        · exact ih _ _ (Or.inl (mem_keys_mapInsert_iff.mpr (Or.inr rfl)))
        · exact ih _ _ (Or.inr ⟨t, ht, rfl⟩)

/-- When all arriving indices are distinct (the normal pipeline case), the Go
map is, as an association list, the arrival list itself. -/
theorem buildMap_eq_of_nodup {results : List Shard}
    (h : (results.map Shard.index).Nodup) :
    buildMap results = results.map fun s => (s.index, s.value) := by
  suffices haux : ∀ (l : List Shard) (acc : List (Nat × List Byte)),
      (acc.map Prod.fst ++ l.map Shard.index).Nodup →
      l.foldl (fun m s => mapInsert m s.index s.value) acc =
        acc ++ l.map fun s => (s.index, s.value) by
    simpa using haux results [] (by simpa using h)
  intro l
  induction l with
  | nil => intro acc _; simp
  | cons s rest ih =>
      intro acc hacc
      simp only [List.map_cons] at hacc
      have hnotin : s.index ∉ acc.map Prod.fst := by
        intro hmem
        exact (List.nodup_append.mp hacc).2.2 hmem (by simp)
      simp only [List.foldl_cons, mapInsert_of_not_mem _ hnotin]
      rw [ih]
      · simp
      · simp only [List.map_append, List.map_cons, List.map_nil]
        rw [List.append_assoc]
        simpa using hacc

/-- Lookup in a distinct-key association list is list membership. -/
theorem mapLookup_pairs_some_iff {l : List Shard} {k : Nat} {v : List Byte}
    (h : (l.map Shard.index).Nodup) :
    mapLookup (l.map fun s => (s.index, s.value)) k = some v ↔
      (⟨k, v⟩ : Shard) ∈ l := by
  induction l with
  | nil => simp [mapLookup]
  | cons s rest ih =>
      simp only [List.map_cons, List.nodup_cons] at h
      simp only [List.map_cons, mapLookup, List.mem_cons]
      by_cases hk : s.index = k
      · rw [if_pos hk]
        simp only [Option.some.injEq]
        constructor
        · rintro rfl
          exact Or.inl (by cases s; cases hk; rfl)
        · rintro (rfl | hmem)
          · rfl
          · exact absurd (hk ▸ List.mem_map_of_mem Shard.index hmem) h.1
      · rw [if_neg hk, ih h.2]
        constructor
        · exact Or.inr
        · rintro (rfl | hmem)
          · exact absurd rfl hk
          · exact hmem

/-- Looking a key up in the collector's map does not depend on the order in
which the results arrived, as long as indices are distinct. -/
theorem mapLookup_buildMap_perm {l l' : List Shard}
    (hperm : l.Perm l') (h : (l.map Shard.index).Nodup) (k : Nat) :
    mapLookup (buildMap l) k = mapLookup (buildMap l') k := by
  have h' : (l'.map Shard.index).Nodup := ((hperm.map Shard.index).nodup_iff).mp h
  rw [buildMap_eq_of_nodup h, buildMap_eq_of_nodup h']
  cases hl : mapLookup (l.map fun s => (s.index, s.value)) k with
  | none =>
      symm
      rw [mapLookup_eq_none_iff] at hl ⊢
      intro hmem
      exact hl (((hperm.map fun s => (s.index, s.value)).map
        Prod.fst).mem_iff.mpr hmem)
  | some v =>
      symm
      rw [mapLookup_pairs_some_iff h'] at *
      rw [mapLookup_pairs_some_iff h] at hl
      exact hperm.mem_iff.mp hl

/-! ### Write-loop lemmas -/

theorem pos_le_length_writeAt {c : List Byte} {pos : Nat} (h : pos ≤ c.length)
    (s : List Byte) : pos + s.length ≤ (writeAt c pos s).length := by
  simp only [writeAt, List.length_append, List.length_take, List.length_drop]
  omega

/-- Two consecutive writes at the running offset amount to one write of the
concatenation. -/
theorem writeAt_writeAt {c : List Byte} {pos : Nat} (h : pos ≤ c.length)
    (a b : List Byte) :
    writeAt (writeAt c pos a) (pos + a.length) b = writeAt c pos (a ++ b) := by
  have hta : (c.take pos ++ a).length = pos + a.length := by
    rw [List.length_append, List.length_take]
    omega
  have htake : (writeAt c pos a).take (pos + a.length) = c.take pos ++ a := by
    rw [writeAt, List.take_append_of_le_length (le_of_eq hta.symm), ← hta,
      List.take_length]
  have hdrop : (writeAt c pos a).drop (pos + a.length + b.length) =
      c.drop (pos + a.length + b.length) := by
    rw [writeAt,
      show pos + a.length + b.length = (c.take pos ++ a).length + b.length from
        by rw [hta],
      List.drop_append, List.drop_drop, hta]
  calc writeAt (writeAt c pos a) (pos + a.length) b
      = (writeAt c pos a).take (pos + a.length) ++ b ++
          (writeAt c pos a).drop (pos + a.length + b.length) := rfl
    _ = (c.take pos ++ a) ++ b ++ c.drop (pos + a.length + b.length) := by
          rw [htake, hdrop]
    _ = writeAt c pos (a ++ b) := by
          simp [writeAt, List.append_assoc, Nat.add_assoc]

theorem writeAt_nil (c : List Byte) (pos : Nat) : writeAt c pos [] = c := by
  simp [writeAt]

theorem writeLoopAt_stop {f : Nat → List Byte} {wfail : Nat → Bool}
    {count i : Nat} {st : WState} (h : ¬i < count) :
    writeLoopAt f wfail count i st = st := by
  rw [writeLoopAt]
  simp [h]

theorem writeLoopAt_fail {f : Nat → List Byte} {wfail : Nat → Bool}
    {count i : Nat} {st : WState} (h : i < count) (hw : wfail i = true) :
    writeLoopAt f wfail count i st = { st with ok := false } := by
  rw [writeLoopAt]
  simp [h, hw]

theorem writeLoopAt_step {f : Nat → List Byte} {wfail : Nat → Bool}
    {count i : Nat} {st : WState} (h : i < count) (hw : wfail i = false) :
    writeLoopAt f wfail count i st =
      writeLoopAt f wfail count (i + 1)
        ⟨writeAt st.content st.pos (f i), st.pos + (f i).length,
          st.written ++ f i, st.ok⟩ := by
  rw [writeLoopAt]
  simp [h, hw]

/-- With no write failure in range, the loop writes the entries `f i … f (count-1)`
contiguously at the running offset, and the ok flag survives. -/
theorem writeLoopAt_noFail (f : Nat → List Byte) (wfail : Nat → Bool)
    (count : Nat) : ∀ i st, st.pos ≤ st.content.length →
    (∀ j, i ≤ j → j < count → wfail j = false) →
    writeLoopAt f wfail count i st =
      ⟨writeAt st.content st.pos ((List.range' i (count - i)).map f).flatten,
        st.pos + (((List.range' i (count - i)).map f).flatten).length,
        st.written ++ ((List.range' i (count - i)).map f).flatten, st.ok⟩ := by
  intro i st
  induction i, st using writeLoopAt.induct f wfail count with
  | case1 i st h hw =>
      intro _ hall
      exact absurd (hall i (Nat.le_refl i) h) (by simp [hw])
  | case2 i st h hw ih =>
      intro hpos hall
      have hw' : wfail i = false := by simpa using hw
      rw [writeLoopAt_step h hw', ih (pos_le_length_writeAt hpos _)
        (fun j hj hjc => hall j (by omega) hjc)]
      have hcnt : count - i = (count - (i + 1)) + 1 := by omega
      rw [hcnt, List.range'_succ, List.map_cons, List.flatten_cons]
      simp only [WState.mk.injEq]
      refine ⟨writeAt_writeAt hpos _ _, by simp [Nat.add_assoc], by
        simp [List.append_assoc], trivial⟩
  | case3 i st h =>
      intro hpos _
      rw [writeLoopAt_stop h, Nat.sub_eq_zero_of_le (by omega)]
      simp only [List.range'_zero, List.map_nil, List.flatten_nil]
      cases st with
      | mk c p w ok =>
          simp only [WState.mk.injEq]
          exact ⟨(writeAt_nil _ _).symm, by simp, by simp, trivial⟩

/-- With the first write failure at index `j`, the loop writes exactly the
entries `f i … f (j-1)`, then stops with the ok flag cleared. -/
theorem writeLoopAt_firstFail (f : Nat → List Byte) (wfail : Nat → Bool)
    (count : Nat) : ∀ i st, st.pos ≤ st.content.length →
    ∀ j, i ≤ j → j < count → wfail j = true →
    (∀ t, i ≤ t → t < j → wfail t = false) →
    writeLoopAt f wfail count i st =
      ⟨writeAt st.content st.pos ((List.range' i (j - i)).map f).flatten,
        st.pos + (((List.range' i (j - i)).map f).flatten).length,
        st.written ++ ((List.range' i (j - i)).map f).flatten, false⟩ := by
  intro i st
  induction i, st using writeLoopAt.induct f wfail count with
  | case1 i st h hw =>
      intro hpos j hij hjc hj hmin
      have hji : j = i := by
        by_contra hne
        have : wfail i = false := hmin i (Nat.le_refl i) (by omega)
        rw [this] at hw
        exact absurd hw (by simp)
      subst hji
      rw [writeLoopAt_fail h hw, Nat.sub_self]
      simp only [List.range'_zero, List.map_nil, List.flatten_nil]
      cases st with
      | mk c p w ok =>
          simp only [WState.mk.injEq]
          exact ⟨(writeAt_nil _ _).symm, by simp, by simp, trivial⟩
  | case2 i st h hw ih =>
      intro hpos j hij hjc hj hmin
      have hw' : wfail i = false := by simpa using hw
      have hij' : i + 1 ≤ j := by
        rcases Nat.eq_or_lt_of_le hij with rfl | hlt
        · rw [hj] at hw'; exact absurd hw' (by simp)
        · omega
      rw [writeLoopAt_step h hw', ih (pos_le_length_writeAt hpos _) j hij' hjc hj
        (fun t ht htj => hmin t (by omega) htj)]
      have hcnt : j - i = (j - (i + 1)) + 1 := by omega
      rw [hcnt, List.range'_succ, List.map_cons, List.flatten_cons]
      simp only [WState.mk.injEq]
      refine ⟨writeAt_writeAt hpos _ _, by simp [Nat.add_assoc], by
        simp [List.append_assoc], trivial⟩
  | case3 i st h =>
      intro _ j hij hjc _ _
      omega

/-- The write loop only reads `f` at indices in `[i, count)`. -/
theorem writeLoopAt_congr (f g : Nat → List Byte) (wfail : Nat → Bool)
    (count : Nat) : ∀ i st, (∀ j, i ≤ j → j < count → f j = g j) →
    writeLoopAt f wfail count i st = writeLoopAt g wfail count i st := by
  intro i st
  induction i, st using writeLoopAt.induct f wfail count with
  | case1 i st h hw =>
      intro _
      rw [writeLoopAt_fail h hw, writeLoopAt_fail h hw]
  | case2 i st h hw ih =>
      intro hall
      have hw' : wfail i = false := by simpa using hw
      have hfg := hall i (Nat.le_refl i) h
      rw [writeLoopAt_step h hw', @writeLoopAt_step g wfail count i st h hw', hfg]
      have hrec := ih fun j hj hjc => hall j (by omega) hjc
      rwa [hfg] at hrec
  | case3 i st h =>
      intro _
      rw [writeLoopAt_stop h, writeLoopAt_stop h]

/-! ### `writeResults` run lemmas -/

theorem writeResults_true_eq (results : List Shard) (pre : Option (List Byte))
    (wfail : Nat → Bool) :
    writeResults results true pre wfail =
      collectorOut (writeLoopAt
        (fun i => (mapLookup (buildMap results) i).getD [])
        wfail (buildMap results).length 0 ⟨pre.getD [], 0, [], true⟩) := rfl

theorem writeResults_false_eq (results : List Shard) (pre : Option (List Byte))
    (wfail : Nat → Bool) :
    writeResults results false pre wfail = ⟨pre, [], [false]⟩ := rfl

theorem writeAt_zero (c s : List Byte) : writeAt c 0 s = s ++ c.drop s.length := by
  simp [writeAt]

/-- A successful-open run with no write failure below `count` writes the slot
payloads `0 .. count-1` in ascending order over the start of the pre-existing
content, and signals `[true]`. -/
theorem writeResults_true_noFail (results : List Shard)
    (pre : Option (List Byte)) (wfail : Nat → Bool)
    (hw : ∀ j, j < (buildMap results).length → wfail j = false) :
    writeResults results true pre wfail =
      ⟨some (writtenSeg results (buildMap results).length ++
          (pre.getD []).drop (writtenSeg results (buildMap results).length).length),
        writtenSeg results (buildMap results).length, [true]⟩ := by
  rw [writeResults_true_eq,
    writeLoopAt_noFail _ wfail (buildMap results).length 0
      ⟨pre.getD [], 0, [], true⟩ (by simp) (fun j _ hj => hw j hj)]
  simp only [collectorOut, writeAt_zero, Nat.sub_zero, ← List.range_eq_range',
    List.nil_append, if_pos]
  rfl

/-- A successful-open run whose first write failure is at loop index `j` writes
only the slot payloads `0 .. j-1`, and signals `[false, true]`. -/
theorem writeResults_true_firstFail (results : List Shard)
    (pre : Option (List Byte)) (wfail : Nat → Bool) (j : Nat)
    (hj : j < (buildMap results).length) (hwj : wfail j = true)
    (hmin : ∀ t, t < j → wfail t = false) :
    writeResults results true pre wfail =
      ⟨some (writtenSeg results j ++
          (pre.getD []).drop (writtenSeg results j).length),
        writtenSeg results j, [false, true]⟩ := by
  rw [writeResults_true_eq,
    writeLoopAt_firstFail _ wfail (buildMap results).length 0
      ⟨pre.getD [], 0, [], true⟩ (by simp) j (Nat.zero_le j) hj hwj
      (fun t _ ht => hmin t ht)]
  simp only [collectorOut, writeAt_zero, Nat.sub_zero, ← List.range_eq_range',
    List.nil_append]
  rfl

/-- If some collected shard's index is at least the number of map entries, then
(pigeonhole) some loop index below that count is not a key of the map. -/
theorem exists_missing_key {results : List Shard} {s : Shard} (hs : s ∈ results)
    (hge : (buildMap results).length ≤ s.index) :
    ∃ i, i < (buildMap results).length ∧
      i ∉ (buildMap results).map Prod.fst := by
  by_contra hno
  push_neg at hno
  have hnd : ((buildMap results).map Prod.fst).Nodup := buildMap_keys_nodup results
  have hk0 : s.index ∈ (buildMap results).map Prod.fst := mem_keys_buildMap hs
  have hsub : insert s.index (Finset.range (buildMap results).length) ⊆
      ((buildMap results).map Prod.fst).toFinset := by
    intro x hx
    rcases Finset.mem_insert.mp hx with rfl | hx
    · exact List.mem_toFinset.mpr hk0
    · exact List.mem_toFinset.mpr (hno x (Finset.mem_range.mp hx))
  have hcard := Finset.card_le_card hsub
  rw [Finset.card_insert_of_not_mem (by rw [Finset.mem_range]; omega),
    Finset.card_range, List.toFinset_card_of_nodup hnd, List.length_map] at hcard
  omega

/-- When a shard list's indices are exactly `0 .. n-1` in order, the slot
payloads the collector looks up are exactly its payloads, in list order. -/
theorem slot_map_of_indices_range {l : List Shard}
    (h : l.map Shard.index = List.range l.length) :
    (List.range l.length).map (fun i => (mapLookup (buildMap l) i).getD []) =
      l.map Shard.value := by
  have hnd : (l.map Shard.index).Nodup := by rw [h]; exact List.nodup_range _
  apply List.ext_getElem (by simp)
  intro i h1 h2
  have hi : i < l.length := by simpa using h1
  have hidx : (l[i]).index = i := by
    have := congrArg (fun t => t[i]?) h
    simp only [List.getElem?_map] at this
    rw [List.getElem?_eq_getElem hi, List.getElem?_eq_getElem (by simpa using hi)]
      at this
    simpa using this
  have hmem : (⟨i, (l[i]).value⟩ : Shard) ∈ l := by
    have : l[i] = ⟨i, (l[i]).value⟩ := by
      cases he : l[i] with
      | mk a b => rw [he] at hidx; simpa using hidx
    exact this ▸ List.getElem_mem hi
  have hlook : mapLookup (buildMap l) i = some ((l[i]).value) := by
    rw [buildMap_eq_of_nodup hnd]
    exact (mapLookup_pairs_some_iff hnd).mpr hmem
  simp [hlook, hi]

/-! ## Claim theorems -/

/-- C2: with chunk size `C > 0` the producer emits exactly `⌈S / C⌉` chunks for
a file of `S` bytes; for a nonempty file the final chunk's payload length is
`S % C` when that is nonzero and `C` otherwise (a partial final block of
`0 < n < C` bytes is emitted as the last chunk; an empty remainder — a
zero-byte read at end of file — emits nothing). -/
theorem producer_chunk_count_and_last_length (size : Nat) (hs : 0 < size)
    (c : List Byte) :
    (readChunks size c).length = (c.length + size - 1) / size ∧
    (c ≠ [] →
      ((readChunks size c).getLast?).map (fun s => s.value.length) =
        some (if c.length % size = 0 then size else c.length % size)) :=
  ⟨readLoop_length size hs c 0, fun hc => readLoop_getLast size hs c 0 hc⟩

theorem producer_chunk_count_and_last_length_witness :
    (readChunks 4 [65, 66, 67, 68, 69, 70, 71, 72, 73, 74]).length = 3 ∧
    ((readChunks 4 [65, 66, 67, 68, 69, 70, 71, 72, 73, 74]).getLast?).map
      (fun s => s.value.length) = some 2 := by
  have h := producer_chunk_count_and_last_length 4 (by decide)
    [65, 66, 67, 68, 69, 70, 71, 72, 73, 74]
  exact ⟨h.1.trans (by decide), (h.2 (by decide)).trans (by decide)⟩

/-- C9: whenever the producer's read completes without error, the emitted
indices are exactly the contiguous range `0 .. count-1` — no gaps, no
duplicates — assigned strictly increasingly from 0 in read order. -/
theorem producer_indices_contiguous (size : Nat) (_hs : 0 < size)
    (c : List Byte) :
    (readChunks size c).map Shard.index =
      List.range (readChunks size c).length := by
  rw [readChunks, readLoop_map_index, List.range_eq_range']

theorem producer_indices_contiguous_witness :
    (readChunks 4 [65, 66, 67, 68, 69, 70, 71, 72, 73, 74]).map Shard.index =
      List.range (readChunks 4 [65, 66, 67, 68, 69, 70, 71, 72, 73, 74]).length :=
  producer_indices_contiguous 4 (by decide) _

/-- C7: the producer closes its output queue on every exit path (success, open
failure, or mid-stream read error); an open failure yields the empty chunk
stream, and a run with read errors emits a prefix of the error-free chunk
stream — each emitted chunk is a chunk of the true stream. -/
theorem producer_always_closes_queue_prefix (size : Nat) (_hs : 0 < size)
    (openResult : Option (List Byte)) (readErr : Nat → Bool) :
    (readChunksRun openResult size readErr).closed = true ∧
    (readChunksRun none size readErr).emitted = [] ∧
    ∀ c, (readChunksRun (some c) size readErr).emitted <+: readChunks size c := by
  refine ⟨?_, rfl, fun c => readLoop_prefix size readErr c 0⟩
  cases openResult <;> rfl

theorem producer_always_closes_queue_prefix_witness :
    (readChunksRun (some [65, 66, 67]) 2 (fun i => decide (1 ≤ i))).closed = true ∧
    (readChunksRun none 2 (fun i => decide (1 ≤ i))).emitted = [] ∧
    (readChunksRun (some [65, 66, 67]) 2 (fun i => decide (1 ≤ i))).emitted <+:
      readChunks 2 [65, 66, 67] := by
  have h := producer_always_closes_queue_prefix 2 (by decide)
    (some [65, 66, 67]) (fun i => decide (1 ≤ i))
  exact ⟨h.1, h.2.1, h.2.2 [65, 66, 67]⟩

/-- C6: for a nonexistent input path the producer emits zero chunks and closes
its queue immediately; the collector, receiving no results, still creates the
output file — empty, when it did not pre-exist — and reports success. The
caller-visible outcome reflects only the collector's flag, not the producer's
failure. -/
theorem nonexistent_input_still_reports_success (size : Nat)
    (readErr : Nat → Bool) (wfail : Nat → Bool) :
    readChunksRun none size readErr = ⟨[], true⟩ ∧
    writeResults [] true none wfail = ⟨some [], [], [true]⟩ ∧
    reportedOutcome (writeResults [] true none wfail) = some true := by
  have h2 : writeResults [] true none wfail = ⟨some [], [], [true]⟩ := by
    rw [writeResults_true_eq, writeLoopAt_stop (by decide)]
    rfl
  exact ⟨rfl, h2, by rw [h2]; rfl⟩

/-- C10: when the first write error occurs at loop index `j` (mid-loop), the
collector sends `false` on `done`, breaks out of the write loop, and the
fall-through code then also sends `true`: a single run emits failure followed
by success. -/
theorem collector_failure_then_success_signal (results : List Shard)
    (pre : Option (List Byte)) (wfail : Nat → Bool) (j : Nat)
    (hj : j < (buildMap results).length) (hwj : wfail j = true)
    (hmin : ∀ t, t < j → wfail t = false) :
    (writeResults results true pre wfail).signals = [false, true] := by
  rw [writeResults_true_firstFail results pre wfail j hj hwj hmin]

theorem collector_failure_then_success_signal_witness :
    (writeResults [⟨0, [65]⟩] true none (fun _ => true)).signals =
      [false, true] :=
  collector_failure_then_success_signal [⟨0, [65]⟩] none (fun _ => true) 0
    (by decide) rfl (fun t ht => absurd ht (Nat.not_lt_zero t))

/-- C4: the collector writes the collected payloads in ascending index order
`0 .. count-1`, where `count` is the number of map entries (the written bytes
are `writtenSeg`, the in-order concatenation of the slot payloads); a write
failure at index `j` aborts the remaining writes — only slots `0 .. j-1` get
written — and failure is reported on `done`; with no write failure success is
reported. -/
theorem collector_write_order_and_error_handling (results : List Shard)
    (pre : Option (List Byte)) (wfail : Nat → Bool) :
    ((∀ j, j < (buildMap results).length → wfail j = false) →
      (writeResults results true pre wfail).written =
        writtenSeg results (buildMap results).length ∧
      (writeResults results true pre wfail).signals = [true]) ∧
    (∀ j, j < (buildMap results).length → wfail j = true →
      (∀ t, t < j → wfail t = false) →
      (writeResults results true pre wfail).written = writtenSeg results j ∧
      reportedOutcome (writeResults results true pre wfail) = some false) := by
  constructor
  · intro hw
    rw [writeResults_true_noFail results pre wfail hw]
    exact ⟨rfl, rfl⟩
  · intro j hj hwj hmin
    rw [writeResults_true_firstFail results pre wfail j hj hwj hmin]
    exact ⟨rfl, rfl⟩

theorem collector_write_order_and_error_handling_witness :
    (writeResults [⟨1, [66]⟩, ⟨0, [65]⟩] true none (fun _ => false)).written =
      writtenSeg [⟨1, [66]⟩, ⟨0, [65]⟩] 2 ∧
    (writeResults [⟨1, [66]⟩, ⟨0, [65]⟩] true none (fun _ => false)).signals =
      [true] ∧
    (writeResults [⟨1, [66]⟩, ⟨0, [65]⟩] true none
        (fun i => decide (i = 1))).written =
      writtenSeg [⟨1, [66]⟩, ⟨0, [65]⟩] 1 ∧
    reportedOutcome (writeResults [⟨1, [66]⟩, ⟨0, [65]⟩] true none
        (fun i => decide (i = 1))) = some false := by
  have hA := (collector_write_order_and_error_handling [⟨1, [66]⟩, ⟨0, [65]⟩]
    none (fun _ => false)).1 (fun j _ => rfl)
  have hB := (collector_write_order_and_error_handling [⟨1, [66]⟩, ⟨0, [65]⟩]
    none (fun i => decide (i = 1))).2 1 (by decide) (by decide)
    (fun t ht => by
      have ht0 : t = 0 := by omega
      subst ht0
      rfl)
  refine ⟨hA.1.trans ?_, hA.2, hB.1, hB.2⟩
  rw [show (buildMap [⟨1, [66]⟩, ⟨0, [65]⟩]).length = 2 from by decide]

/-- C3: the collector's write loop iterates `0 .. count-1` with `count` the
number of map entries. If some collected shard's index is at least `count`
(non-contiguous indices, as after a lost or duplicated chunk), that shard is
silently skipped — the run is unchanged under any replacement of the results
that preserves the entry count and the lookups below `count` — and some index
below `count` is missing from the map, so its lookup fails and the zero value
`[]` is written in place of that chunk's payload. -/
theorem collector_skips_out_of_range_indices (results : List Shard) (s : Shard)
    (hs : s ∈ results) (hge : (buildMap results).length ≤ s.index) :
    (∃ i, i < (buildMap results).length ∧
      mapLookup (buildMap results) i = none ∧ slotPayload results i = []) ∧
    ∀ results₂ pre wfail,
      (buildMap results₂).length = (buildMap results).length →
      (∀ i, i < (buildMap results).length →
        mapLookup (buildMap results₂) i = mapLookup (buildMap results) i) →
      writeResults results₂ true pre wfail =
        writeResults results true pre wfail := by
  constructor
  · obtain ⟨i, hi, hnomem⟩ := exists_missing_key hs hge
    have hnone : mapLookup (buildMap results) i = none :=
      mapLookup_eq_none_iff.mpr hnomem
    exact ⟨i, hi, hnone, by simp [slotPayload, hnone]⟩
  · intro results₂ pre wfail hcount hagree
    rw [writeResults_true_eq, writeResults_true_eq, hcount]
    congr 1
    exact writeLoopAt_congr _ _ wfail _ 0 _ (fun j _ hj => by rw [hagree j hj])

theorem collector_skips_out_of_range_indices_witness :
    writeResults [⟨0, [65]⟩, ⟨99, [68]⟩] true none (fun _ => false) =
      writeResults [⟨0, [65]⟩, ⟨2, [67]⟩] true none (fun _ => false) ∧
    mapLookup (buildMap [⟨0, [65]⟩, ⟨2, [67]⟩]) 1 = none := by
  refine ⟨?_, by decide⟩
  exact (collector_skips_out_of_range_indices [⟨0, [65]⟩, ⟨2, [67]⟩] ⟨2, [67]⟩
    (by decide) (by decide)).2 [⟨0, [65]⟩, ⟨99, [68]⟩] none (fun _ => false)
    (by decide) (fun i hi => by
      have h2 : i < 2 := lt_of_lt_of_eq hi (by decide)
      interval_cases i <;> decide)

/-- C5 fails on the code: `writeResults` opens the output with
`O_WRONLY|O_CREATE` and no `O_TRUNC`. With pre-existing output content
`[66, 67]` and one collected payload `[65]`, the run writes exactly `[65]`, but
the final file content is `[65, 67]` — not just the bytes written this run. -/
theorem collector_truncate_counterexample :
    (writeResults [⟨0, [65]⟩] true (some [66, 67]) (fun _ => false)).written =
      [65] ∧
    (writeResults [⟨0, [65]⟩] true (some [66, 67]) (fun _ => false)).fileContent =
      some [65, 67] ∧
    some ([65, 67] : List Byte) ≠ some [65] := by
  have h := writeResults_true_noFail [⟨0, [65]⟩] (some [66, 67])
    (fun _ => false) (fun j _ => rfl)
  rw [h]
  exact ⟨by decide, by decide, by decide⟩

/-- C5 amended: the collector opens the output file in create mode without
truncation, so on a successful open the final file content is the bytes
written this run followed by whatever pre-existing content extends beyond
them; when the open fails the collector reports failure immediately, writing
nothing and leaving the file untouched. -/
theorem collector_create_without_truncate (results : List Shard)
    (pre : Option (List Byte)) (wfail : Nat → Bool) :
    (writeResults results true pre wfail).fileContent =
      some ((writeResults results true pre wfail).written ++
        (pre.getD []).drop
          (writeResults results true pre wfail).written.length) ∧
    writeResults results false pre wfail = ⟨pre, [], [false]⟩ := by
  refine ⟨?_, rfl⟩
  by_cases hex : ∃ j, j < (buildMap results).length ∧ wfail j = true
  · have hj0 := Nat.find_spec hex
    have hmin : ∀ t, t < Nat.find hex → wfail t = false := by
      intro t ht
      have := Nat.find_min hex ht
      by_cases hw : wfail t = true
      · exact absurd ⟨lt_trans ht hj0.1, hw⟩ this
      · simpa using hw
    rw [writeResults_true_firstFail results pre wfail (Nat.find hex) hj0.1
      hj0.2 hmin]
  · push_neg at hex
    have hw : ∀ j, j < (buildMap results).length → wfail j = false := by
      intro j hj
      have := hex j hj
      simpa using this
    rw [writeResults_true_noFail results pre wfail hw]

/-- C1: for any input content, chunk size > 0, index-preserving transform, and
any order in which the workers deliver their results (any permutation of the
transformed chunk list), the collector writes the transformed payloads
concatenated in ascending chunk-index order into a fresh output file and
reports success; in particular, with the identity transform the output bytes
equal the input bytes exactly. -/
theorem pipeline_output_in_index_order (size : Nat) (hs : 0 < size)
    (c : List Byte) (process : Shard → Shard)
    (hidx : ∀ s, (process s).index = s.index) (delivered : List Shard)
    (hperm : delivered.Perm ((readChunks size c).map process)) :
    writeResults delivered true none (fun _ => false) =
      ⟨some (((readChunks size c).map fun s => (process s).value).flatten),
        ((readChunks size c).map fun s => (process s).value).flatten,
        [true]⟩ ∧
    ((∀ s, process s = s) →
      writeResults delivered true none (fun _ => false) =
        ⟨some c, c, [true]⟩) := by
  have hcidx : (readChunks size c).map Shard.index =
      List.range (readChunks size c).length := by
    rw [readChunks, readLoop_map_index, List.range_eq_range']
  have hpidx : ((readChunks size c).map process).map Shard.index =
      List.range ((readChunks size c).map process).length := by
    rw [List.map_map, show Shard.index ∘ process = Shard.index from funext hidx,
      List.length_map]
    exact hcidx
  have hpnodup : (((readChunks size c).map process).map Shard.index).Nodup := by
    rw [hpidx]
    exact List.nodup_range _
  have hdnodup : (delivered.map Shard.index).Nodup :=
    ((hperm.map Shard.index).nodup_iff).mpr hpnodup
  have hdlen : (buildMap delivered).length = delivered.length := by
    rw [buildMap_eq_of_nodup hdnodup, List.length_map]
  have hlook := mapLookup_buildMap_perm hperm hdnodup
  have hseg : writtenSeg delivered (buildMap delivered).length =
      ((readChunks size c).map fun s => (process s).value).flatten := by
    rw [writtenSeg, hdlen, hperm.length_eq]
    have hslot : (List.range ((readChunks size c).map process).length).map
          (slotPayload delivered) =
        (List.range ((readChunks size c).map process).length).map
          (fun i => (mapLookup (buildMap ((readChunks size c).map process))
            i).getD []) := by
      apply List.map_congr_left
      intro i _
      rw [slotPayload, hlook i]
    rw [hslot, slot_map_of_indices_range hpidx, List.map_map]
    rfl
  have hrun := writeResults_true_noFail delivered none (fun _ => false)
    (fun _ _ => rfl)
  rw [hseg] at hrun
  simp only [Option.getD_none, List.drop_nil, List.append_nil] at hrun
  refine ⟨hrun, fun hid => ?_⟩
  rw [hrun]
  have hpc : (readChunks size c).map process = readChunks size c := by
    rw [show process = id from funext hid, List.map_id]
  have hflat : ((readChunks size c).map fun s => (process s).value).flatten
      = c := by
    have : ((readChunks size c).map fun s => (process s).value) =
        (readChunks size c).map Shard.value := by
      apply List.map_congr_left
      intro s _
      rw [hid s]
    rw [this, readChunks, readLoop_flatten size hs c 0]
  rw [hflat]

theorem pipeline_output_in_index_order_witness :
    writeResults (((readChunks 4 [65, 66, 67, 68, 69]).map id).reverse) true
        none (fun _ => false) =
      ⟨some [65, 66, 67, 68, 69], [65, 66, 67, 68, 69], [true]⟩ :=
  (pipeline_output_in_index_order 4 (by decide) [65, 66, 67, 68, 69] id
    (fun _ => rfl) (((readChunks 4 [65, 66, 67, 68, 69]).map id).reverse)
    (List.reverse_perm _)).2 (fun _ => rfl)

/-- On the int64-representable range the wrapped offset is the exact product.
The numeral bounds are `-2^63` and `2^63`. -/
theorem wrap64_eq_of_bounds {x : Int} (h1 : -9223372036854775808 ≤ x)
    (h2 : x < 9223372036854775808) : wrap64 x = x := by
  rw [wrap64]
  omega

/-- C8 as stated fails on the code: Go computes the offset `index*size` in
`int64`, which wraps on overflow. For a file of `N = 2` records of `size = 4`
bytes and `i = 2^62 ≥ N`, the product `2^62 * 4 = 2^64` wraps to offset `0`,
so `ReadValue` returns record 0's bytes instead of failing. -/
theorem readValue_wraparound_counterexample :
    (4611686018427387904 : Int) = 2 ^ 62 ∧
    (([10, 11, 12, 13, 14, 15, 16, 17] : List Byte).length : Int) = 2 * 4 ∧
    (2 : Int) ≤ 4611686018427387904 ∧
    ReadValue (some [10, 11, 12, 13, 14, 15, 16, 17]) 4611686018427387904 4 =
      some [10, 11, 12, 13] ∧
    some ([10, 11, 12, 13] : List Byte) ≠ none := by
  refine ⟨by norm_num, by decide, by decide, by decide, by decide⟩

/-- C8 amended: for a file of `N` uniform records of `size > 0` bytes each
(file length `N * size`, representable in `int64`), `ReadValue` returns
exactly the `size` bytes at offset `i * size` — record `i` — for every
`0 ≤ i < N`, and returns nothing for `i < 0` and for `i ≥ N` (fewer than
`size` bytes are then available at the offset), provided the `int64` offset
product `i * size` does not wrap (`-2^63 ≤ i * size < 2^63`; at wrap points
the code reads at the wrapped offset instead). -/
theorem readValue_record_access_no_wrap (content : List Byte) (N size : Int)
    (hsize : 0 < size) (hlen : (content.length : Int) = N * size)
    (hfit : (content.length : Int) < 2 ^ 63) :
    (∀ i : Int, 0 ≤ i → i < N →
      ReadValue (some content) i size =
        some ((content.drop (i * size).toNat).take size.toNat) ∧
      ((content.drop (i * size).toNat).take size.toNat).length = size.toNat) ∧
    (∀ i : Int, i < 0 → -(2 ^ 63) ≤ i * size →
      ReadValue (some content) i size = none) ∧
    (∀ i : Int, N ≤ i → i * size < 2 ^ 63 →
      ReadValue (some content) i size = none) := by
  have e63 : (2 : Int) ^ 63 = 9223372036854775808 := by norm_num
  refine ⟨?_, ?_, ?_⟩
  · intro i h0 hN
    have hoff : (0 : Int) ≤ i * size := mul_nonneg h0 (le_of_lt hsize)
    have havail : size ≤ (content.length : Int) - i * size := by
      have h1 : (1 : Int) ≤ N - i := by omega
      have h2 : (1 : Int) * size ≤ (N - i) * size :=
        mul_le_mul_of_nonneg_right h1 (le_of_lt hsize)
      rw [one_mul, sub_mul] at h2
      omega
    have hwrap : wrap64 (i * size) = i * size := by
      rw [e63] at hfit
      exact wrap64_eq_of_bounds (by omega) (by omega)
    constructor
    · simp only [ReadValue, hwrap]
      rw [if_neg (not_lt.mpr hoff),
        if_neg (not_lt.mpr (le_min (le_refl size) havail))]
    · rw [List.length_take, List.length_drop]
      have e1 : (((i * size).toNat : Nat) : Int) = i * size :=
        Int.toNat_of_nonneg hoff
      have e2 : ((size.toNat : Nat) : Int) = size :=
        Int.toNat_of_nonneg (le_of_lt hsize)
      omega
  · intro i hi hnw
    have hoff : i * size < 0 := mul_neg_of_neg_of_pos hi hsize
    have hwrap : wrap64 (i * size) = i * size := by
      rw [e63] at hnw
      exact wrap64_eq_of_bounds (by omega) (by omega)
    simp only [ReadValue, hwrap]
    rw [if_pos hoff, if_pos hsize]
  · intro i hNi hnw
    have hN0 : (0 : Int) ≤ N := by
      by_contra hneg
      push_neg at hneg
      have hmul : N * size < 0 := mul_neg_of_neg_of_pos hneg hsize
      have hnn : (0 : Int) ≤ (content.length : Int) := Int.natCast_nonneg _
      omega
    have hoff : (0 : Int) ≤ i * size :=
      mul_nonneg (le_trans hN0 hNi) (le_of_lt hsize)
    have hle : (content.length : Int) - i * size ≤ 0 := by
      have := mul_le_mul_of_nonneg_right hNi (le_of_lt hsize)
      omega
    have hwrap : wrap64 (i * size) = i * size := by
      rw [e63] at hnw
      exact wrap64_eq_of_bounds (by omega) (by omega)
    simp only [ReadValue, hwrap]
    rw [if_neg (not_lt.mpr hoff),
      if_pos (lt_of_le_of_lt (le_trans (min_le_right _ _) hle) hsize)]

theorem readValue_record_access_no_wrap_witness :
    ReadValue (some [1, 2, 3, 4, 5, 6]) 1 2 = some [3, 4] ∧
    ReadValue (some [1, 2, 3, 4, 5, 6]) (-1) 2 = none ∧
    ReadValue (some [1, 2, 3, 4, 5, 6]) 3 2 = none := by
  have h := readValue_record_access_no_wrap [1, 2, 3, 4, 5, 6] 3 2 (by decide)
    (by decide) (by norm_num)
  exact ⟨((h.1 1 (by decide) (by decide)).1).trans (by decide),
    h.2.1 (-1) (by decide) (by norm_num), h.2.2 3 (by decide) (by norm_num)⟩
